import Mathlib

/-!
Shallow embedding of the pending-operation registry, the sandbox capability
surface, and the JavaScript auto-repair pass of the teamwork bot
(internal/functions.go), together with proofs about the claims on them.

Conventions of the embedding:
* Go interface values appearing in parameter maps become the inductive `JVal`;
  Go type assertions become partial projections returning `Option`.
* The process-wide map `pendingOperations` becomes an association list
  threaded through the handlers; Go map assignment is insert-with-overwrite,
  Go delete removes the key.
* The nanosecond clock `time.Now().UnixNano()` is passed explicitly as a
  natural number `now`.
* Functions that panic into the JavaScript VM or return Go errors return
  `Except String` values.
-/

namespace Teamwork

/-- Heterogeneous JSON-like values: the subset of Go interface values that flows
through the parameter maps of functions.go (strings, numbers, booleans, arrays,
nested objects, and JSON null). Numbers are modelled as integers, which covers
every numeric value the handlers produce or inspect. -/
inductive JVal where
  | null
  | str (s : String)
  | num (n : Int)
  | boolean (b : Bool)
  | arr (xs : List JVal)
  | obj (fields : List (String × JVal))

/-- A Go parameter map, as an association list whose first binding for a key is
the effective one; construction sites never duplicate keys. -/
abbrev Params := List (String × JVal)

/-- First-binding lookup in a parameter map. -/
def lookupParam : Params → String → Option JVal
  | [], _ => none
  | (k, v) :: rest, key => if k = key then some v else lookupParam rest key

/-- Go type assertion to string: `parameters[key].(string)` fails (returns
`none`) when the key is absent or the value is not a string. -/
def getString (p : Params) (key : String) : Option String :=
  match lookupParam p key with
  | some (.str s) => some s
  | _ => none

/-- Go type assertion to float64 for the numeric parameters; values are
integral in every call site, so the embedded value is an integer. -/
def getNum (p : Params) (key : String) : Option Int :=
  match lookupParam p key with
  | some (.num n) => some n
  | _ => none

/-- Go type assertion to a slice of interface values. -/
def getArr (p : Params) (key : String) : Option (List JVal) :=
  match lookupParam p key with
  | some (.arr xs) => some xs
  | _ => none

/-- PendingOperation from functions.go: an operation awaiting confirmation. -/
structure PendingOperation where
  id : String
  userID : Int
  chatID : Int
  type : String
  parameters : Params
  description : String
  createdAt : Nat

/-- OperationResult from functions.go: outcome of executing a confirmed
operation. -/
structure OperationResult where
  success : Bool
  message : String
deriving DecidableEq

/-- The process-wide map `pendingOperations`, keyed by operation id. -/
abbrev Registry := List (String × PendingOperation)

/-- Go map read `pendingOperations[id]`. -/
def lookupOp : Registry → String → Option PendingOperation
  | [], _ => none
  | (k, v) :: rest, key => if k = key then some v else lookupOp rest key

/-- Go `delete(pendingOperations, id)`. -/
def eraseOp : Registry → String → Registry
  | [], _ => []
  | (k, v) :: rest, key =>
    if k = key then eraseOp rest key else (k, v) :: eraseOp rest key

/-- Go map assignment `pendingOperations[id] = op`: insert with overwrite. -/
def insertOp (reg : Registry) (key : String) (op : PendingOperation) : Registry :=
  (key, op) :: eraseOp reg key

/-- Model of generateOperationID: the Go code formats the nanosecond clock
reading with Sprintf as a decimal, yielding the string op_ followed by the
decimal digits of `now`. -/
def generateOperationID (now : Nat) : String :=
  "op_" ++ Nat.repr now

/-- Model of handleCreateProject: validates the title parameter, treats the
description as optional, builds a pending create_project operation and stores
it in the registry. On a validation error the registry is returned untouched.
The description strings reproduce the exact (mojibake) literals of the source. -/
def handleCreateProject (reg : Registry) (userID : Int) (chatID : Int) (now : Nat)
    (parameters : Params) : Except String PendingOperation × Registry :=
  match getString parameters "title" with
  | none => (.error "invalid title parameter", reg)
  | some title =>
    let description := (getString parameters "description").getD ""
    let operationDesc :=
      if description ≠ "" then
        "–°–æ–∑–¥–∞—Ç—å –ø—Ä–æ–µ–∫—Ç \x27" ++ title ++ "\x27\n–û–ø–∏—Å–∞–Ω–∏–µ: " ++ description
      else
        "–°–æ–∑–¥–∞—Ç—å –ø—Ä–æ–µ–∫—Ç \x27" ++ title ++ "\x27"
    let operation : PendingOperation :=
      { id := generateOperationID now, userID := userID, chatID := chatID,
        type := "create_project", parameters := parameters,
        description := operationDesc, createdAt := now }
    (.ok operation, insertOp reg operation.id operation)

/-- Model of handleDeleteProject: validates the project_id parameter, builds a
pending delete_project operation and stores it in the registry. -/
def handleDeleteProject (reg : Registry) (userID : Int) (chatID : Int) (now : Nat)
    (parameters : Params) : Except String PendingOperation × Registry :=
  match getNum parameters "project_id" with
  | none => (.error "invalid project_id parameter", reg)
  | some projectID =>
    let operation : PendingOperation :=
      { id := generateOperationID now, userID := userID, chatID := chatID,
        type := "delete_project", parameters := parameters,
        description := "–£–¥–∞–ª–∏—Ç—å –ø—Ä–æ–µ–∫—Ç #" ++ toString projectID,
        createdAt := now }
    (.ok operation, insertOp reg operation.id operation)

/-- The button-data validation loop of handleSendMessageWithButtons: each
button must be a map carrying string text and action fields; the loop stops at
the first malformed button. -/
def buildButtonData : List JVal → Except String (List String)
  | [] => .ok []
  | b :: rest =>
    match b with
    | .obj bmap =>
      match getString bmap "text" with
      | none => .error "invalid button text format"
      | some text =>
        match getString bmap "action" with
        | none => .error "invalid button action format"
        | some action =>
          match buildButtonData rest with
          | .error e => .error e
          | .ok ds => .ok ((text ++ "|" ++ action) :: ds)
    | _ => .error "invalid button format"

/-- A button is well formed when it is an object carrying string text and
action fields (the condition the validation loop enforces). -/
def buttonWellFormed : JVal → Bool
  | .obj bmap => (getString bmap "text").isSome && (getString bmap "action").isSome
  | _ => false

/-- The pending operation that handleSendMessageWithButtons registers. -/
def sendMessageOperation (userID : Int) (chatID : Int) (now : Nat)
    (parameters : Params) (message : String) : PendingOperation :=
  { id := generateOperationID now, userID := userID, chatID := chatID,
    type := "send_message_with_buttons", parameters := parameters,
    description := "–û—Ç–ø—Ä–∞–≤–∫–∞ —Å–æ–æ–±—â–µ–Ω–∏—è —Å –∫–Ω–æ–ø–∫–∞–º–∏: " ++ message,
    createdAt := now }

/-- Model of handleSendMessageWithButtons: validates the message parameter,
the buttons slice, the six-button cap, and each button, in that order; only
when everything passes is a pending operation created and registered. -/
def handleSendMessageWithButtons (reg : Registry) (userID : Int) (chatID : Int)
    (now : Nat) (parameters : Params) : Except String PendingOperation × Registry :=
  match getString parameters "message" with
  | none => (.error "invalid message parameter", reg)
  | some message =>
    match getArr parameters "buttons" with
    | none => (.error "invalid buttons parameter", reg)
    | some buttons =>
      if buttons.length > 6 then (.error "too many buttons (max 6 allowed)", reg)
      else
        match buildButtonData buttons with
        | .error e => (.error e, reg)
        | .ok _ =>
          let operation := sendMessageOperation userID chatID now parameters message
          (.ok operation, insertOp reg operation.id operation)

/-- The value a mutating capability returns into the JavaScript VM: a
pending-operation proposal, not the effect of the mutation. -/
structure ProposalResult where
  requiresConfirmation : Bool
  operationID : String
  description : String
  type : String

/-- Model of the teamwork.createProject capability of executeJavaScriptDirect:
it stores the first argument under the key name and the second under
description, delegates to handleCreateProject, and on a handler error throws a
TypeError into the VM (the Except.error case). The chat id is 0 at this call
site. -/
def teamworkCreateProject (reg : Registry) (userID : Int) (now : Nat)
    (name description : String) : Except String ProposalResult × Registry :=
  let parameters : Params := [("name", .str name), ("description", .str description)]
  match handleCreateProject reg userID 0 now parameters with
  | (.error e, reg') => (.error ("Failed to create project operation: " ++ e), reg')
  | (.ok op, reg') =>
    (.ok { requiresConfirmation := true, operationID := op.id,
           description := op.description, type := "create_project" }, reg')

/-- Outcome of the confirmation-resolution path of HandleCallbackQuery. -/
inductive ResolveOutcome where
  | invalidData
  | notFound
  | userLookupFailed
  | permissionDenied
  | executed (result : OperationResult)
  | cancelled
  | ignoredAction
deriving DecidableEq

/-- Result of one resolution attempt: the registry afterwards, the outcome,
and the list of operations handed to the execution routine (empty unless a
confirm reached execution). -/
structure ResolveResult where
  registry : Registry
  outcome : ResolveOutcome
  executedOps : List PendingOperation

/-- Model of strings.Split with a one-character separator: the pieces between
occurrences of the separator, with empty pieces preserved (never returns an
empty list). -/
def splitOnChar (sep : Char) : List Char → List (List Char)
  | [] => [[]]
  | c :: rest =>
    if c = sep then [] :: splitOnChar sep rest
    else
      match splitOnChar sep rest with
      | [] => [[c]]
      | l :: ls => (c :: l) :: ls

/-- Model of strings.Join with a one-character separator. -/
def joinChar (sep : Char) : List (List Char) → List Char
  | [] => []
  | [l] => l
  | l :: ls => l ++ sep :: joinChar sep ls

/-- Callback-data parsing of HandleCallbackQuery: data shorter than 7 bytes is
ignored; otherwise the text before the first underscore is the action and the
rest (underscores rejoined) is the operation id. -/
def parseCallbackData (data : String) : Option (String × String) :=
  if data.length < 7 then none
  else
    match splitOnChar '_' data.data with
    | [] => none
    | [_] => none
    | action :: rest => some (String.mk action, String.mk (joinChar '_' rest))

/-- The confirmation-resolution path of HandleCallbackQuery (the special
button prefixes handled earlier in the Go function are outside this model):
parse the callback data, look up the pending operation, resolve the acting
user, check ownership, delete the record, then on confirm run the execution
routine. `exec` abstracts executeOperation together with the persistence
collaborator it mutates; `actingUser` abstracts the database user lookup
(none models a lookup error or a missing user). -/
def HandleCallbackQuery (exec : PendingOperation → OperationResult)
    (reg : Registry) (actingUser : Option Int) (data : String) : ResolveResult :=
  match parseCallbackData data with
  | none => ⟨reg, .invalidData, []⟩
  | some (action, operationID) =>
    match lookupOp reg operationID with
    | none => ⟨reg, .notFound, []⟩
    | some operation =>
      match actingUser with
      | none => ⟨reg, .userLookupFailed, []⟩
      | some uid =>
        if uid ≠ operation.userID then ⟨reg, .permissionDenied, []⟩
        else
          let reg' := eraseOp reg operationID
          if action = "confirm" then ⟨reg', .executed (exec operation), [operation]⟩
          else if action = "cancel" then ⟨reg', .cancelled, []⟩
          else ⟨reg', .ignoredAction, []⟩

/-- A project row as scanned by GetUserProjects: the embedding keeps the
fields that the JSON encoding of a row exposes. -/
structure Project where
  id : Int
  userID : Int
  title : String
  description : String
  status : String

/-- JSON encoding of one project row. -/
def projectJson (p : Project) : JVal :=
  .obj [("id", .num p.id), ("user_id", .num p.userID), ("title", .str p.title),
        ("description", .str p.description), ("status", .str p.status)]

/-- The encoding/json view of a Go slice built by appending inside a row loop:
zero rows leave the slice nil, and a nil slice marshals as JSON null; a
non-empty slice marshals as a JSON array. -/
def goSliceJson (xs : List JVal) : JVal :=
  if xs.isEmpty then JVal.null else JVal.arr xs

/-- Model of executeListProjects: the database query (scoped to the acting
user, optionally filtered by status) is abstracted as the row list `rows`; the
function marshals the response object with the projects slice, the count and
the filters. -/
def executeListProjects (rows : List Project) (parameters : Params) : JVal :=
  JVal.obj [("projects", goSliceJson (rows.map projectJson)),
            ("count", .num rows.length),
            ("filters", .obj parameters)]

/-- Model of the teamwork.listProjects capability of executeJavaScriptDirect:
unmarshal the response of executeListProjects and hand the projects field to
the VM; only when the field is absent does the fallback empty array apply. -/
def teamworkListProjects (rows : List Project) (parameters : Params) : JVal :=
  match executeListProjects rows parameters with
  | .obj fields =>
    match lookupParam fields "projects" with
    | some v => v
    | none => .arr []
  | _ => .arr []

/-- The response structure assembled by executeJavaScriptDirect on successful
completion: optional messages list and optional output list (a field is
absent from the marshaled response exactly when it is `none`). -/
structure JsResponse where
  messages : Option (List String)
  output : Option (List String)
deriving DecidableEq

/-- Serialization of the final interpreter value: a nil result serializes as
the text undefined; otherwise `some s` carries the MarshalIndent rendering,
which is external to this model. -/
def serializeFinalValue : Option String → String
  | none => "undefined"
  | some s => s

/-- The output-assembly step of executeJavaScriptDirect: messages are included
when any were emitted, output data when any was emitted, and when neither was
emitted the serialized final expression value becomes the single output
entry. -/
def buildJsResponse (userMessages outputData : List String) (resultStr : String) :
    JsResponse :=
  { messages := if userMessages.length > 0 then some userMessages else none
  , output :=
      if outputData.length > 0 then some outputData
      else if userMessages.length = 0 then some [resultStr] else none }

/-- The timeout selection of executeJavaScriptDirect: default 10 seconds; a
supplied timeout_seconds value (already truncated to an integer, mirroring the
Go conversion from float64) is clamped to at least 1 and at most 60 and never
rejected. -/
def effectiveTimeout : Option Int → Int
  | none => 10
  | some t => if t < 1 then 1 else if t > 60 then 60 else t

/-- The Timeout field of the HTTP client used by the fetch capability, in
seconds: the sandbox budget minus one, with a fixed 5-second fallback when
that is not positive. This field is only one of the two bounds on a fetch:
the request also carries the sandbox context, modelled below. -/
def fetchRequestTimeout (timeout : Int) : Int :=
  if timeout - 1 ≤ 0 then 5 else timeout - 1

/-- The remaining budget of the sandbox timeout context at the moment a fetch
is issued: the request is created with the invocation context, whose deadline
is the invocation start plus the sandbox timeout, so with `elapsed` seconds
already spent the context allows `timeout - elapsed` more seconds. -/
def fetchContextRemaining (timeout elapsed : Int) : Int :=
  timeout - elapsed

/-- The effective per-request deadline of a fetch, in seconds: the HTTP
client aborts the request at the earlier of its Timeout field and the
deadline of the context the request was created with. -/
def fetchEffectiveDeadline (timeout elapsed : Int) : Int :=
  min (fetchRequestTimeout timeout) (fetchContextRemaining timeout elapsed)

/-- The fetch response-size cap in bytes: io.LimitReader with 1024*1024. -/
def responseBodyCap : Nat := 1024 * 1024

/-- Reading the response body through the limit reader: at most
`responseBodyCap` bytes of the body are read. -/
def readResponseBody (body : List Nat) : List Nat :=
  body.take responseBodyCap

/-- ASCII whitespace, covering both the regexp class backslash-s and the
characters TrimSpace strips in the code handled here. -/
def isWsChar (c : Char) : Bool :=
  c == ' ' || c == '\t' || c == '\n' || c == '\r' || c == '\x0b' || c == '\x0c'

/-- Model of strings.TrimSpace, left side. -/
def trimLeftChars (s : List Char) : List Char := s.dropWhile isWsChar

/-- Model of strings.TrimSpace, right side. -/
def trimRightChars (s : List Char) : List Char := (s.reverse.dropWhile isWsChar).reverse

/-- Model of strings.TrimSpace. -/
def trimChars (s : List Char) : List Char := trimRightChars (trimLeftChars s)

/-- Model of strings.Contains with a one-character needle. -/
def containsChar (s : List Char) (c : Char) : Bool := s.any (· == c)

/-- Model of strings.Contains: some position of `s` starts with `pat`. -/
def containsSub : List Char → List Char → Bool
  | [], pat => pat.isEmpty
  | c :: rest, pat => pat.isPrefixOf (c :: rest) || containsSub rest pat

/-- Model of strings.Index with a one-character needle (position of the first
occurrence, none when absent). -/
def firstIdx : List Char → Char → Option Nat
  | [], _ => none
  | x :: rest, c => if x = c then some 0 else (firstIdx rest c).map (· + 1)

/-- Model of strings.LastIndex with a one-character needle. -/
def lastIdx : List Char → Char → Option Nat
  | [], _ => none
  | x :: rest, c =>
    match lastIdx rest c with
    | some i => some (i + 1)
    | none => if x = c then some 0 else none

/-- Model of strings.Replace with count 1: splice the replacement in at the
first occurrence of the pattern, leave the text unchanged when absent. -/
def replaceFirst (pat new : List Char) : List Char → List Char
  | [] => if pat.isPrefixOf ([] : List Char) then new else []
  | c :: rest =>
    if pat.isPrefixOf (c :: rest) then new ++ (c :: rest).drop pat.length
    else c :: replaceFirst pat new rest

/-- The scanner for the regexp fragment matching the callback parameters: zero
or more characters other than a closing parenthesis, up to a literal arrow.
The arrow is located at its first occurrence; for parameter text without a
spurious arrow this coincides with the regexp engine. Returns the consumed
characters (arrow included) and the remainder. -/
def scanParams : List Char → Option (List Char × List Char)
  | [] => none
  | c :: rest =>
    if c = '=' ∧ rest.head? = some '>' then some (['=', '>'], rest.tail)
    else if c = ')' then none
    else
      match scanParams rest with
      | none => none
      | some (p, r) => some (c :: p, r)

/-- Helper of `scanInner`: consume characters up to and excluding the first
closing brace, returning them and the text after the brace. -/
def scanInnerAux : List Char → Option (List Char × List Char)
  | [] => none
  | c :: rest =>
    if c = '\x7d' then some ([], rest)
    else
      match scanInnerAux rest with
      | none => none
      | some (b, r) => some (c :: b, r)

/-- The scanner for the regexp fragment matching the object-literal body: one
or more characters other than a closing brace, followed by the closing
brace. -/
def scanInner : List Char → Option (List Char × List Char)
  | [] => none
  | c :: rest =>
    if c = '\x7d' then none
    else
      match scanInnerAux rest with
      | none => none
      | some (b, r) => some (c :: b, r)

/-- One attempt of the map-callback regexp of autoFixJavaScript at the head of
the text: a literal dot-map-open-parenthesis, the parameter text up to the
arrow, optional whitespace, an opening brace, and a non-empty brace-free body
up to the closing brace. Returns the whole matched text and the remainder. -/
def tryMapMatch (s : List Char) : Option (List Char × List Char) :=
  match s with
  | c1 :: c2 :: c3 :: c4 :: c5 :: rest =>
    if c1 = '.' ∧ c2 = 'm' ∧ c3 = 'a' ∧ c4 = 'p' ∧ c5 = '(' then
      match scanParams rest with
      | none => none
      | some (ps, r1) =>
        let ws := r1.takeWhile isWsChar
        let r2 := r1.dropWhile isWsChar
        match r2 with
        | '\x7b' :: r3 =>
          match scanInner r3 with
          | none => none
          | some (inner, r4) =>
            some ('.' :: 'm' :: 'a' :: 'p' :: '(' ::
                    (ps ++ ws ++ '\x7b' :: (inner ++ ['\x7d'])), r4)
        | _ => none
    else none
  | _ => none

/-- The replacement function autoFixJavaScript applies to one regexp match:
keep a match that already mentions return; otherwise locate the first opening
and last closing brace, trim the text between them, and when that content has
a colon and no semicolon, splice a return-wrapped object literal between the
braces. -/
def fixMatch (m : List Char) : List Char :=
  if containsSub m ("return".data) then m
  else
    match firstIdx m '\x7b', lastIdx m '\x7d' with
    | some bs, some be =>
      let content := trimChars ((m.drop (bs + 1)).take (be - (bs + 1)))
      if containsChar content ':' && !containsChar content ';' then
        m.take (bs + 1) ++ (" return \x7b ".data) ++ content ++ (" \x7d; ".data)
          ++ m.drop be
      else m
    | _, _ => m

/-- Scan the whole text replacing every match of the map-callback regexp, left
to right; the fuel argument only bounds recursion and is always sufficient at
the call site. -/
def fixMapAux : Nat → List Char → List Char
  | 0, s => s
  | _ + 1, [] => []
  | fuel + 1, c :: rest =>
    match tryMapMatch (c :: rest) with
    | some (m, r) => fixMatch m ++ fixMapAux fuel r
    | none => c :: fixMapAux fuel rest

/-- The map-callback pass of autoFixJavaScript. -/
def fixMapCalls (s : List Char) : List Char := fixMapAux s.length s

/-- The standalone object-literal detection of autoFixJavaScript, applied to a
trimmed line: starts with an opening brace, ends with a closing brace, has a
colon, and mentions neither return nor an equals sign. -/
def standaloneDetect (t : List Char) : Bool :=
  (t.head? == some '\x7b') && (t.getLast? == some '\x7d') && containsChar t ':' &&
    !containsSub t ("return".data) && !containsChar t '='

/-- The replacement text for a detected standalone object literal line. -/
def commentFix (t : List Char) : List Char :=
  "// Fixed: ".data ++ t ++ " (was standalone object)".data

/-- The per-line step of the standalone-object pass: on detection the trimmed
text is replaced in place by the comment marker and the fixed flag is set. -/
def fixLineF (line : List Char) : List Char × Bool :=
  let t := trimChars line
  if standaloneDetect t then (replaceFirst t (commentFix t) line, true)
  else (line, false)

/-- The standalone-object pass over all lines, accumulating the fixed flag. -/
def fixLines : List (List Char) → List (List Char) × Bool
  | [] => ([], false)
  | l :: ls =>
    let p := fixLineF l
    let q := fixLines ls
    (p.1 :: q.1, p.2 || q.2)

/-- Model of autoFixJavaScript: the map-callback regexp pass, then the
standalone-object line pass; the fixed flag records whether the first pass
changed the text or the second pass fired, and the joined lines are returned
whenever the flag is set. -/
def autoFixJavaScript (code : String) : String × Bool :=
  let chars := code.data
  let afterMap := fixMapCalls chars
  let mapFixed : Bool := if afterMap = chars then false else true
  let lp := fixLines (splitOnChar '\n' afterMap)
  let fixed := mapFixed || lp.2
  let final := if fixed then joinChar '\n' lp.1 else afterMap
  (String.mk final, fixed)

/-- Decimal value of a digit string, used to invert the rendering inside
generateOperationID. -/
def decimalVal (ds : List Char) : Nat :=
  ds.foldl (fun a c => 10 * a + (c.toNat - 48)) 0

/-- The parameter map the sendMessageWithButtons capability builds before
delegating to the handler. -/
def smwbParams (message : String) (buttons : List JVal) : Params :=
  [("message", .str message), ("buttons", .arr buttons)]

/-- Concrete pending operation used to instantiate the resolution theorems. -/
def sampleOp : PendingOperation :=
  { id := "op_5", userID := 1, chatID := 0, type := "delete_project",
    parameters := [("project_id", JVal.num 7)], description := "d", createdAt := 5 }

/-- Concrete registry holding `sampleOp`. -/
def sampleReg : Registry := [("op_5", sampleOp)]

/-- Concrete execution routine used to instantiate the resolution theorems. -/
def sampleExec : PendingOperation → OperationResult :=
  fun _ => { success := true, message := "ok" }

/-- Concrete parameter map used to instantiate the registration theorems. -/
def sampleDeleteParams : Params := [("project_id", JVal.num 7)]

/-- Registry after one delete-project registration at clock 5 for user 1. -/
def overwriteReg1 : Registry := (handleDeleteProject [] 1 0 5 sampleDeleteParams).2

/-- Registry after a second delete-project registration at the same clock 5,
for user 2. -/
def overwriteReg2 : Registry := (handleDeleteProject overwriteReg1 2 0 5 sampleDeleteParams).2

/-- A well-formed button value. -/
def sampleButton : JVal := .obj [("text", .str "Yes"), ("action", .str "yes")]

/-- Seven well-formed buttons: one more than the cap. -/
def sevenButtons : List JVal := List.replicate 7 sampleButton

/-- Two well-formed buttons: within the cap. -/
def twoButtons : List JVal := List.replicate 2 sampleButton

/-! Registry lemmas. -/

theorem lookupOp_eraseOp_self (reg : Registry) (k : String) :
    lookupOp (eraseOp reg k) k = none := by
  induction reg with
  | nil => rfl
  | cons hd tl ih =>
    obtain ⟨k', op⟩ := hd
    by_cases h : k' = k <;> simp [eraseOp, lookupOp, h, ih]

theorem lookupOp_eraseOp_ne (reg : Registry) {k k' : String} (h : k ≠ k') :
    lookupOp (eraseOp reg k') k = lookupOp reg k := by
  induction reg with
  | nil => rfl
  | cons hd tl ih =>
    obtain ⟨k'', op⟩ := hd
    by_cases h2 : k'' = k'
    · subst h2
      simp [eraseOp, lookupOp, ih, Ne.symm h]
    · by_cases h3 : k'' = k
      · subst h3
        simp [eraseOp, lookupOp, h, ih]
      · simp [eraseOp, lookupOp, h2, h3, ih]

theorem lookupOp_insertOp_self (reg : Registry) (k : String) (op : PendingOperation) :
    lookupOp (insertOp reg k op) k = some op := by
  simp [insertOp, lookupOp]

theorem lookupOp_insertOp_ne (reg : Registry) {k k' : String} (op : PendingOperation)
    (h : k' ≠ k) : lookupOp (insertOp reg k op) k' = lookupOp reg k' := by
  simp [insertOp, lookupOp, Ne.symm h, lookupOp_eraseOp_ne reg h]

/-- Claim C1: calling the createProject capability with a name and description
is claimed to return a pending-operation proposal; on the code it instead
throws, because the capability stores the project name under the key name
while the handler requires the key title. The call returns the thrown error
and leaves the registry untouched, so no pending operation is registered and
no persisted row can ever result. -/
theorem c1_createProject_faults (reg : Registry) (userID : Int) (now : Nat)
    (name description : String) :
    teamworkCreateProject reg userID now name description
      = (.error "Failed to create project operation: invalid title parameter", reg) := rfl

/-- Claim C3: a resolution attempt by a user different from the one stored in
the record fails closed: the outcome is a permission denial, the execution
routine receives nothing, and the registry is returned unchanged. -/
theorem c3_mismatched_user_fails_closed (exec : PendingOperation → OperationResult)
    (reg : Registry) (data action operationID : String) (op : PendingOperation)
    (uid : Int) (hparse : parseCallbackData data = some (action, operationID))
    (hlookup : lookupOp reg operationID = some op) (hne : uid ≠ op.userID) :
    HandleCallbackQuery exec reg (some uid) data = ⟨reg, .permissionDenied, []⟩ := by
  simp [HandleCallbackQuery, hparse, hlookup, hne]

/-- Witness for C3 at concrete inputs: user 2 cannot resolve the operation
owned by user 1. -/
theorem c3_mismatched_user_fails_closed_witness :
    HandleCallbackQuery sampleExec sampleReg (some 2) "confirm_op_5"
      = ⟨sampleReg, .permissionDenied, []⟩ :=
  c3_mismatched_user_fails_closed sampleExec sampleReg "confirm_op_5" "confirm" "op_5"
    sampleOp 2 rfl rfl (by decide)

/-- Claim C2: when the owning user resolves a pending operation with confirm
or cancel, the record is removed no matter what the execution routine returns,
any later resolution attempt on the same id reports not-found, on confirm the
stored operation is handed to the execution routine, and on cancel nothing is
executed. -/
theorem c2_resolution_removes_record (exec : PendingOperation → OperationResult)
    (reg : Registry) (data action operationID : String) (op : PendingOperation)
    (hparse : parseCallbackData data = some (action, operationID))
    (hlookup : lookupOp reg operationID = some op)
    (haction : action = "confirm" ∨ action = "cancel") :
    lookupOp (HandleCallbackQuery exec reg (some op.userID) data).registry operationID = none
    ∧ (∀ (exec₂ : PendingOperation → OperationResult) (user₂ : Option Int)
        (data₂ act₂ : String), parseCallbackData data₂ = some (act₂, operationID) →
        (HandleCallbackQuery exec₂
            (HandleCallbackQuery exec reg (some op.userID) data).registry
            user₂ data₂).outcome = .notFound)
    ∧ (action = "confirm" →
        (HandleCallbackQuery exec reg (some op.userID) data).outcome = .executed (exec op)
        ∧ (HandleCallbackQuery exec reg (some op.userID) data).executedOps = [op])
    ∧ (action = "cancel" →
        (HandleCallbackQuery exec reg (some op.userID) data).outcome = .cancelled
        ∧ (HandleCallbackQuery exec reg (some op.userID) data).executedOps = []) := by
  have hreg : (HandleCallbackQuery exec reg (some op.userID) data).registry
      = eraseOp reg operationID := by
    rcases haction with h | h <;> subst h <;> simp [HandleCallbackQuery, hparse, hlookup]
  refine ⟨?_, ?_, ?_, ?_⟩
  · rw [hreg]; exact lookupOp_eraseOp_self reg operationID
  · intro exec₂ user₂ data₂ act₂ hparse₂
    rw [hreg]
    simp [HandleCallbackQuery, hparse₂, lookupOp_eraseOp_self reg operationID]
  · intro h; subst h
    constructor <;> simp [HandleCallbackQuery, hparse, hlookup]
  · intro h; subst h
    constructor <;> simp [HandleCallbackQuery, hparse, hlookup]

/-- Witness for C2 at concrete inputs: confirming removes the record, the
execution routine runs once on the stored operation, and a second attempt on
the same id reports not-found. -/
theorem c2_resolution_removes_record_witness :
    lookupOp (HandleCallbackQuery sampleExec sampleReg (some sampleOp.userID)
        "confirm_op_5").registry "op_5" = none
    ∧ (HandleCallbackQuery sampleExec
        (HandleCallbackQuery sampleExec sampleReg (some sampleOp.userID)
          "confirm_op_5").registry (some 1) "cancel_op_5").outcome = .notFound
    ∧ (HandleCallbackQuery sampleExec sampleReg (some sampleOp.userID)
        "confirm_op_5").outcome = .executed (sampleExec sampleOp) := by
  have h := c2_resolution_removes_record sampleExec sampleReg "confirm_op_5" "confirm"
    "op_5" sampleOp rfl rfl (Or.inl rfl)
  exact ⟨h.1, h.2.1 sampleExec (some 1) "cancel_op_5" "cancel" rfl, (h.2.2.1 rfl).1⟩

/-! Injectivity of the decimal rendering used by generateOperationID. -/

theorem toDigitsCore_append (b : Nat) :
    ∀ (fuel n : Nat) (acc : List Char),
      Nat.toDigitsCore b fuel n acc = Nat.toDigitsCore b fuel n [] ++ acc := by
  intro fuel
  induction fuel with
  | zero => intro n acc; simp [Nat.toDigitsCore]
  | succ fuel ih =>
    intro n acc
    by_cases h : n / b = 0
    · simp [Nat.toDigitsCore, h]
    · simp only [Nat.toDigitsCore, h, if_false]
      rw [ih (n / b) (Nat.digitChar (n % b) :: acc), ih (n / b) [Nat.digitChar (n % b)]]
      simp

theorem digitChar_val (n : Nat) (h : n < 10) : (Nat.digitChar n).toNat - 48 = n := by
  interval_cases n <;> rfl

theorem decimalVal_append_one (ds : List Char) (c : Char) :
    decimalVal (ds ++ [c]) = 10 * decimalVal ds + (c.toNat - 48) := by
  simp [decimalVal, List.foldl_append]

theorem decimalVal_toDigitsCore :
    ∀ fuel n : Nat, n < fuel → decimalVal (Nat.toDigitsCore 10 fuel n []) = n := by
  intro fuel
  induction fuel with
  | zero => intro n h; omega
  | succ fuel ih =>
    intro n h
    by_cases hdiv : n / 10 = 0
    · have hn : n < 10 := by omega
      have hmod : n % 10 = n := Nat.mod_eq_of_lt hn
      simp [Nat.toDigitsCore, hdiv, decimalVal, hmod, digitChar_val n hn]
    · have hnpos : 0 < n := by
        rcases Nat.eq_zero_or_pos n with h0 | h0
        · exact absurd (by simp [h0]) hdiv
        · exact h0
      have hlt : n / 10 < fuel := by
        have := Nat.div_lt_self hnpos (by norm_num : 1 < 10)
        omega
      simp only [Nat.toDigitsCore, hdiv, if_false]
      rw [toDigitsCore_append 10 fuel (n / 10) [Nat.digitChar (n % 10)]]
      rw [decimalVal_append_one, ih (n / 10) hlt,
        digitChar_val (n % 10) (Nat.mod_lt n (by norm_num))]
      exact Nat.div_add_mod n 10

theorem natRepr_injective {m n : Nat} (h : Nat.repr m = Nat.repr n) : m = n := by
  have hdata : (Nat.toDigits 10 m) = (Nat.toDigits 10 n) := by
    have := congrArg String.data h
    simpa [Nat.repr, List.asString] using this
  have hm := decimalVal_toDigitsCore (m + 1) m (Nat.lt_succ_self m)
  have hn := decimalVal_toDigitsCore (n + 1) n (Nat.lt_succ_self n)
  rw [Nat.toDigits] at hdata
  rw [Nat.toDigits] at hdata
  rw [← hm, ← hn, hdata]

theorem generateOperationID_injective {t1 t2 : Nat}
    (h : generateOperationID t1 = generateOperationID t2) : t1 = t2 := by
  have hdata := congrArg String.data h
  simp only [generateOperationID, String.data_append] at hdata
  have hrepr : (Nat.repr t1).data = (Nat.repr t2).data :=
    List.append_cancel_left hdata
  exact natRepr_injective (by
    have := congrArg String.mk hrepr
    simpa using this)

/-- Claim C5 counterexample: two registrations whose nanosecond clock readings
coincide generate the same identifier; the second silently overwrites the
first unresolved record (the stored owner changes from user 1 to user 2 and
the registry still holds a single record). -/
theorem c5_collision_counterexample :
    (lookupOp overwriteReg1 (generateOperationID 5)).map PendingOperation.userID = some 1
    ∧ (lookupOp overwriteReg2 (generateOperationID 5)).map PendingOperation.userID = some 2
    ∧ overwriteReg2.length = 1 :=
  ⟨rfl, rfl, rfl⟩

/-- Claim C5 amended: identifiers are derived from the nanosecond clock, so
registrations at distinct clock readings get distinct identifiers; inserting
under a fresh identifier preserves every other record and makes the new one
retrievable; and the delete-project handler registers exactly under the
clock-derived identifier. Nothing prevents two registrations at the same
clock reading from colliding and overwriting. -/
theorem c5_amended_registration :
    (∀ t1 t2 : Nat, t1 ≠ t2 → generateOperationID t1 ≠ generateOperationID t2)
    ∧ (∀ (reg : Registry) (op : PendingOperation) (k : String),
        k ≠ op.id → lookupOp (insertOp reg op.id op) k = lookupOp reg k)
    ∧ (∀ (reg : Registry) (op : PendingOperation),
        lookupOp (insertOp reg op.id op) op.id = some op)
    ∧ (∀ (reg : Registry) (userID chatID : Int) (now : Nat) (params : Params)
        (op : PendingOperation) (reg' : Registry),
        handleDeleteProject reg userID chatID now params = (.ok op, reg') →
        op.id = generateOperationID now ∧ reg' = insertOp reg op.id op) := by
  refine ⟨fun t1 t2 hne h => hne (generateOperationID_injective h),
    fun reg op k hk => lookupOp_insertOp_ne reg op hk,
    fun reg op => lookupOp_insertOp_self reg op.id op,
    fun reg userID chatID now params op reg' h => ?_⟩
  unfold handleDeleteProject at h
  cases hg : getNum params "project_id" with
  | none => rw [hg] at h; exact absurd (congrArg Prod.fst h) (by simp)
  | some pid =>
    rw [hg] at h
    obtain ⟨h1, h2⟩ := Prod.mk.injEq .. ▸ h
    cases h1
    exact ⟨rfl, h2.symm⟩

/-- Witness for C5 amended at concrete inputs: clocks 5 and 6 give distinct
identifiers, and inserting under a fresh identifier keeps the other record. -/
theorem c5_amended_registration_witness :
    generateOperationID 5 ≠ generateOperationID 6
    ∧ lookupOp (insertOp sampleReg sampleOp.id sampleOp) "other" = lookupOp sampleReg "other" :=
  ⟨c5_amended_registration.1 5 6 (by decide),
   c5_amended_registration.2.1 sampleReg sampleOp "other" (by decide)⟩

/-- Claim C4: a project query yielding zero rows is claimed to return an empty
collection to the generated code; on the code the zero-row case leaves the Go
slice nil, which marshals as JSON null, so the capability hands JSON null (not
an empty collection) to the script, while any non-empty row list does come
back as the array of rows. -/
theorem c4_empty_projects_returns_null (parameters : Params) :
    teamworkListProjects [] parameters = JVal.null
    ∧ JVal.null ≠ JVal.arr []
    ∧ (∀ p : Project, teamworkListProjects [p] parameters = JVal.arr [projectJson p]) :=
  ⟨rfl, fun h => JVal.noConfusion h, fun _ => rfl⟩

/-- Claim C6: on successful completion the assembled response carries every
emitted user message and every emitted continuation-output value, and when
neither was emitted it carries exactly the one-entry output list holding the
serialized final expression value. -/
theorem c6_output_assembly (userMessages outputData : List String)
    (finalVal : Option String) :
    (userMessages ≠ [] →
      (buildJsResponse userMessages outputData (serializeFinalValue finalVal)).messages
        = some userMessages)
    ∧ (outputData ≠ [] →
      (buildJsResponse userMessages outputData (serializeFinalValue finalVal)).output
        = some outputData)
    ∧ (userMessages = [] → outputData = [] →
      (buildJsResponse userMessages outputData (serializeFinalValue finalVal)).output
        = some [serializeFinalValue finalVal]
      ∧ (buildJsResponse userMessages outputData (serializeFinalValue finalVal)).messages
        = none) := by
  refine ⟨fun hm => ?_, fun ho => ?_, fun hm ho => ?_⟩
  · simp [buildJsResponse, List.length_pos.mpr hm]
  · simp [buildJsResponse, List.length_pos.mpr ho]
  · subst hm; subst ho; simp [buildJsResponse]

/-- Witness for C6 at concrete inputs: an emitted message is included, and a
silent script yields exactly the serialized final value as the single output
entry. -/
theorem c6_output_assembly_witness :
    (buildJsResponse ["hi"] [] (serializeFinalValue none)).messages = some ["hi"]
    ∧ (buildJsResponse [] [] (serializeFinalValue (some "42"))).output
        = some [serializeFinalValue (some "42")] :=
  ⟨(c6_output_assembly ["hi"] [] none).1 (by simp),
   ((c6_output_assembly [] [] (some "42")).2.2 rfl rfl).1⟩

/-- Claim C7: the effective sandbox timeout always lies between 1 and 60
seconds; requests below 1 become 1, requests above 60 become 60 (never
rejected), and the default when nothing was supplied is 10. -/
theorem c7_timeout_clamped :
    (∀ requested : Option Int,
      1 ≤ effectiveTimeout requested ∧ effectiveTimeout requested ≤ 60)
    ∧ (∀ t : Int, t < 1 → effectiveTimeout (some t) = 1)
    ∧ (∀ t : Int, 60 < t → effectiveTimeout (some t) = 60)
    ∧ effectiveTimeout none = 10 := by
  refine ⟨fun requested => ?_, fun t ht => ?_, fun t ht => ?_, rfl⟩
  · cases requested with
    | none => simp [effectiveTimeout]
    | some t => simp only [effectiveTimeout]; split_ifs <;> omega
  · simp only [effectiveTimeout]; split_ifs; omega
  · simp only [effectiveTimeout]; split_ifs <;> omega

/-- Witness for C7 at concrete inputs. -/
theorem c7_timeout_clamped_witness :
    effectiveTimeout (some 0) = 1 ∧ effectiveTimeout (some 100) = 60 :=
  ⟨c7_timeout_clamped.2.1 0 (by norm_num), c7_timeout_clamped.2.2.1 100 (by norm_num)⟩

/-- Claim C8: every fetch response body read by the sandbox is capped at
1 MiB, and the effective per-request deadline is derived from the sandbox
invocation's remaining budget: the request carries the invocation context,
so it aborts no later than the remaining context budget and in particular
never exceeds the sandbox's own timeout budget, whatever value the client
Timeout field takes (including the 5-second fallback). -/
theorem c8_fetch_limits :
    (∀ body : List Nat, (readResponseBody body).length ≤ responseBodyCap)
    ∧ responseBodyCap = 1024 * 1024
    ∧ (∀ timeout elapsed : Int,
        fetchEffectiveDeadline timeout elapsed ≤ fetchContextRemaining timeout elapsed)
    ∧ (∀ timeout elapsed : Int, 0 ≤ elapsed →
        fetchEffectiveDeadline timeout elapsed ≤ timeout) := by
  refine ⟨fun body => ?_, rfl, fun timeout elapsed => min_le_right _ _,
    fun timeout elapsed he => ?_⟩
  · simp [readResponseBody, List.length_take]
  · unfold fetchEffectiveDeadline
    refine le_trans (min_le_right _ _) ?_
    unfold fetchContextRemaining
    omega

/-- Witness for C8 at concrete inputs: at the minimal 1-second budget with no
time yet spent, the effective deadline is 1 second (the context bound, not
the 5-second client fallback), within the sandbox budget. -/
theorem c8_fetch_limits_witness :
    (readResponseBody [1, 2, 3]).length ≤ responseBodyCap
    ∧ fetchEffectiveDeadline (effectiveTimeout (some 1)) 0 ≤ effectiveTimeout (some 1) :=
  ⟨c8_fetch_limits.1 [1, 2, 3],
   c8_fetch_limits.2.2.2 (effectiveTimeout (some 1)) 0 (by norm_num)⟩

/-- When every button is an object with string text and action fields, the
validation loop succeeds. -/
theorem buildButtonData_ok (buttons : List JVal)
    (h : ∀ b ∈ buttons, buttonWellFormed b) : ∃ ds, buildButtonData buttons = .ok ds := by
  induction buttons with
  | nil => exact ⟨[], rfl⟩
  | cons b rest ih =>
    obtain ⟨ds, hds⟩ := ih fun x hx => h x (List.mem_cons_of_mem b hx)
    have hb := h b (List.mem_cons_self b rest)
    cases b with
    | obj bmap =>
      simp only [buttonWellFormed, Bool.and_eq_true, Option.isSome_iff_exists] at hb
      obtain ⟨⟨text, htext⟩, ⟨action, haction⟩⟩ := hb
      exact ⟨(text ++ "|" ++ action) :: ds, by simp [buildButtonData, htext, haction, hds]⟩
    | null => simp [buttonWellFormed] at hb
    | str s => simp [buttonWellFormed] at hb
    | num n => simp [buttonWellFormed] at hb
    | boolean bo => simp [buttonWellFormed] at hb
    | arr xs => simp [buttonWellFormed] at hb

/-- Claim C10: a sendMessageWithButtons call with more than six buttons faults
with the validation error before anything is registered and the registry is
returned unchanged; with at most six well-formed buttons the pending
operation is created, stored, and retrievable under its identifier. -/
theorem c10_button_cap (reg : Registry) (userID chatID : Int) (now : Nat)
    (message : String) (buttons : List JVal) :
    (6 < buttons.length →
      handleSendMessageWithButtons reg userID chatID now (smwbParams message buttons)
        = (.error "too many buttons (max 6 allowed)", reg))
    ∧ (buttons.length ≤ 6 → (∀ b ∈ buttons, buttonWellFormed b) →
      handleSendMessageWithButtons reg userID chatID now (smwbParams message buttons)
        = (.ok (sendMessageOperation userID chatID now (smwbParams message buttons) message),
           insertOp reg (generateOperationID now)
             (sendMessageOperation userID chatID now (smwbParams message buttons) message))
      ∧ lookupOp (handleSendMessageWithButtons reg userID chatID now
            (smwbParams message buttons)).2 (generateOperationID now)
          = some (sendMessageOperation userID chatID now (smwbParams message buttons) message)) := by
  constructor
  · intro hgt
    simp [handleSendMessageWithButtons, smwbParams, getString, getArr, lookupParam, hgt]
  · intro hle hwf
    obtain ⟨ds, hds⟩ := buildButtonData_ok buttons hwf
    have heq : handleSendMessageWithButtons reg userID chatID now (smwbParams message buttons)
        = (.ok (sendMessageOperation userID chatID now (smwbParams message buttons) message),
           insertOp reg (generateOperationID now)
             (sendMessageOperation userID chatID now (smwbParams message buttons) message)) := by
      simp [handleSendMessageWithButtons, smwbParams, getString, getArr, lookupParam,
        Nat.not_lt.mpr hle, hds, sendMessageOperation]
    refine ⟨heq, ?_⟩
    rw [heq]
    exact lookupOp_insertOp_self reg (generateOperationID now) _

/-- Witness for C10 at concrete inputs: seven buttons fault with the
validation error and leave the registry empty; two buttons register the
operation. -/
theorem c10_button_cap_witness :
    handleSendMessageWithButtons [] 1 2 9 (smwbParams "hello" sevenButtons)
      = (.error "too many buttons (max 6 allowed)", [])
    ∧ handleSendMessageWithButtons [] 1 2 9 (smwbParams "hello" twoButtons)
      = (.ok (sendMessageOperation 1 2 9 (smwbParams "hello" twoButtons) "hello"),
         insertOp [] (generateOperationID 9)
           (sendMessageOperation 1 2 9 (smwbParams "hello" twoButtons) "hello")) :=
  ⟨(c10_button_cap [] 1 2 9 "hello" sevenButtons).1 (by decide),
   ((c10_button_cap [] 1 2 9 "hello" twoButtons).2 (by decide) (by decide)).1⟩

/-! Scanner lemmas for the Syntax Guard embedding. -/

theorem scanParams_decomp : ∀ (s ps r : List Char), scanParams s = some (ps, r) → ps ++ r = s := by
  intro s
  induction s with
  | nil => intro ps r h; simp [scanParams] at h
  | cons c rest ih =>
    intro ps r h
    by_cases h1 : c = '=' ∧ rest.head? = some '>'
    · rw [scanParams, if_pos h1] at h
      simp only [Option.some.injEq, Prod.mk.injEq] at h
      obtain ⟨hps, hr⟩ := h
      obtain ⟨hc, hh⟩ := h1
      subst hc
      cases rest with
      | nil => simp at hh
      | cons x xs =>
        simp only [List.head?, Option.some.injEq] at hh
        subst hh; subst hps; subst hr
        rfl
    · by_cases h2 : c = ')'
      · rw [scanParams, if_neg h1, if_pos h2] at h; exact absurd h (by simp)
      · rw [scanParams, if_neg h1, if_neg h2] at h
        cases hs : scanParams rest with
        | none => rw [hs] at h; simp at h
        | some pr =>
          obtain ⟨p', r'⟩ := pr
          rw [hs] at h
          simp only [Option.some.injEq, Prod.mk.injEq] at h
          obtain ⟨hps, hr⟩ := h
          subst hps; subst hr
          simpa using ih p' r' hs

theorem scanInnerAux_decomp :
    ∀ (s b r : List Char), scanInnerAux s = some (b, r) → b ++ '\x7d' :: r = s := by
  intro s
  induction s with
  | nil => intro b r h; simp [scanInnerAux] at h
  | cons c rest ih =>
    intro b r h
    by_cases h1 : c = '\x7d'
    · subst h1
      rw [scanInnerAux, if_pos rfl] at h
      simp only [Option.some.injEq, Prod.mk.injEq] at h
      obtain ⟨hb, hr⟩ := h
      subst hb; subst hr; rfl
    · rw [scanInnerAux, if_neg h1] at h
      cases hs : scanInnerAux rest with
      | none => rw [hs] at h; simp at h
      | some pr =>
        obtain ⟨b', r'⟩ := pr
        rw [hs] at h
        simp only [Option.some.injEq, Prod.mk.injEq] at h
        obtain ⟨hb, hr⟩ := h
        subst hb; subst hr
        simpa using ih b' r' hs

theorem scanInner_decomp :
    ∀ (s b r : List Char), scanInner s = some (b, r) → b ++ '\x7d' :: r = s := by
  intro s b r h
  cases s with
  | nil => simp [scanInner] at h
  | cons c rest =>
    by_cases h1 : c = '\x7d'
    · rw [scanInner, if_pos h1] at h; exact absurd h (by simp)
    · rw [scanInner, if_neg h1] at h
      cases hs : scanInnerAux rest with
      | none => rw [hs] at h; simp at h
      | some pr =>
        obtain ⟨b', r'⟩ := pr
        rw [hs] at h
        simp only [Option.some.injEq, Prod.mk.injEq] at h
        obtain ⟨hb, hr⟩ := h
        subst hb; subst hr
        simpa using scanInnerAux_decomp rest b' r' hs

theorem tryMapMatch_decomp (s m r : List Char) (h : tryMapMatch s = some (m, r)) :
    m ++ r = s ∧ m ≠ [] := by
  unfold tryMapMatch at h
  split at h
  case _ c1 c2 c3 c4 c5 rest =>
    split at h
    case isTrue h1 =>
      obtain ⟨rfl, rfl, rfl, rfl, rfl⟩ := h1
      cases hp : scanParams rest with
      | none => rw [hp] at h; simp at h
      | some pr =>
        obtain ⟨ps, r1⟩ := pr
        rw [hp] at h
        simp only at h
        split at h
        case _ r3 heq =>
          cases hi : scanInner r3 with
          | none => rw [hi] at h; simp at h
          | some ir =>
            obtain ⟨inner, r4⟩ := ir
            rw [hi] at h
            simp only [Option.some.injEq, Prod.mk.injEq] at h
            obtain ⟨hm, hr⟩ := h
            subst hm; subst hr
            refine ⟨?_, by simp⟩
            have hps := scanParams_decomp rest ps r1 hp
            have hin := scanInner_decomp r3 inner r4 hi
            have hwd : r1.takeWhile isWsChar ++ r1.dropWhile isWsChar = r1 :=
              List.takeWhile_append_dropWhile isWsChar r1
            simp only [List.cons_append, List.append_assoc, List.cons.injEq, true_and]
            rw [← hps]
            congr 1
            conv_rhs => rw [← hwd, heq, ← hin]
            simp
        case _ => simp at h
    case isFalse h1 => simp at h
  case _ => simp at h

theorem fixMapAux_nil (f : Nat) : fixMapAux f [] = [] := by
  cases f <;> rfl

theorem tryMapMatch_none_head (c : Char) (cs : List Char) (h : c ≠ '.') :
    tryMapMatch (c :: cs) = none := by
  rcases cs with _ | ⟨c2, _ | ⟨c3, _ | ⟨c4, _ | ⟨c5, r⟩⟩⟩⟩ <;> simp [tryMapMatch, h]

theorem fixMapAux_fuel : ∀ (f g : Nat) (s : List Char), s.length ≤ f → s.length ≤ g →
    fixMapAux f s = fixMapAux g s := by
  intro f
  induction f with
  | zero =>
    intro g s hf hg
    obtain rfl : s = [] := List.eq_nil_of_length_eq_zero (Nat.le_zero.mp hf)
    rw [fixMapAux_nil, fixMapAux_nil]
  | succ f ih =>
    intro g s hf hg
    cases s with
    | nil => rw [fixMapAux_nil, fixMapAux_nil]
    | cons c rest =>
      cases g with
      | zero => simp at hg
      | succ g' =>
        simp only [List.length_cons, Nat.succ_le_succ_iff] at hf hg
        cases ht : tryMapMatch (c :: rest) with
        | none =>
          simp only [fixMapAux, ht]
          exact congrArg (c :: ·) (ih g' rest hf hg)
        | some mr =>
          obtain ⟨m, r⟩ := mr
          obtain ⟨hmr, hm⟩ := tryMapMatch_decomp _ m r ht
          have hrlen : r.length ≤ rest.length := by
            have hlen := congrArg List.length hmr
            simp only [List.length_append, List.length_cons] at hlen
            have : 1 ≤ m.length := List.length_pos.mpr hm
            omega
          simp only [fixMapAux, ht]
          exact congrArg (fixMatch m ++ ·) (ih g' r (le_trans hrlen hf) (le_trans hrlen hg))

theorem fixMapAux_eq_fixMapCalls (f : Nat) (s : List Char) (h : s.length ≤ f) :
    fixMapAux f s = fixMapCalls s :=
  fixMapAux_fuel f s.length s h le_rfl

theorem fixMapCalls_skip : ∀ (pre s : List Char), '.' ∉ pre →
    fixMapCalls (pre ++ s) = pre ++ fixMapCalls s := by
  intro pre
  induction pre with
  | nil => intro s _; rfl
  | cons c pre' ih =>
    intro s h
    have hc : c ≠ '.' := fun hcc => h (hcc ▸ List.mem_cons_self c pre')
    have hmem : '.' ∉ pre' := fun hm => h (List.mem_cons_of_mem c hm)
    show fixMapCalls (c :: (pre' ++ s)) = c :: (pre' ++ fixMapCalls s)
    unfold fixMapCalls
    simp only [List.length_cons, fixMapAux, tryMapMatch_none_head c (pre' ++ s) hc]
    exact congrArg (c :: ·) (ih s hmem)

theorem fixMapCalls_nodot (s : List Char) (h : '.' ∉ s) : fixMapCalls s = s := by
  have := fixMapCalls_skip s [] h
  simpa [fixMapCalls, fixMapAux_nil] using this

theorem notMem_append {a : Char} {l1 l2 : List Char} (h1 : a ∉ l1) (h2 : a ∉ l2) :
    a ∉ l1 ++ l2 := by
  intro h
  rcases List.mem_append.mp h with h | h
  · exact h1 h
  · exact h2 h

theorem scanParams_append : ∀ (q t : List Char), ')' ∉ q → '=' ∉ q →
    scanParams (q ++ '=' :: '>' :: t) = some (q ++ ['=', '>'], t) := by
  intro q
  induction q with
  | nil =>
    intro t _ _
    show scanParams ('=' :: '>' :: t) = some (['=', '>'], t)
    rw [scanParams, if_pos ⟨rfl, rfl⟩]
    rfl
  | cons ch q' ih =>
    intro t hp he
    have hc1 : ch ≠ ')' := fun hcc => hp (hcc ▸ List.mem_cons_self ch q')
    have hc2 : ch ≠ '=' := fun hcc => he (hcc ▸ List.mem_cons_self ch q')
    have hp' : ')' ∉ q' := fun hm => hp (List.mem_cons_of_mem ch hm)
    have he' : '=' ∉ q' := fun hm => he (List.mem_cons_of_mem ch hm)
    show scanParams (ch :: (q' ++ '=' :: '>' :: t)) = some (ch :: (q' ++ ['=', '>']), t)
    rw [scanParams, if_neg (fun hand => hc2 hand.1), if_neg hc1, ih t hp' he']

theorem scanInnerAux_append : ∀ (b r : List Char), '\x7d' ∉ b →
    scanInnerAux (b ++ '\x7d' :: r) = some (b, r) := by
  intro b
  induction b with
  | nil =>
    intro r _
    show scanInnerAux ('\x7d' :: r) = some ([], r)
    rw [scanInnerAux, if_pos rfl]
  | cons ch b' ih =>
    intro r h
    have hc : ch ≠ '\x7d' := fun hcc => h (hcc ▸ List.mem_cons_self ch b')
    have h' : '\x7d' ∉ b' := fun hm => h (List.mem_cons_of_mem ch hm)
    show scanInnerAux (ch :: (b' ++ '\x7d' :: r)) = some (ch :: b', r)
    rw [scanInnerAux, if_neg hc, ih r h']

theorem scanInner_append (b r : List Char) (hne : b ≠ []) (h : '\x7d' ∉ b) :
    scanInner (b ++ '\x7d' :: r) = some (b, r) := by
  cases b with
  | nil => exact absurd rfl hne
  | cons ch b' =>
    have hc : ch ≠ '\x7d' := fun hcc => h (hcc ▸ List.mem_cons_self ch b')
    have h' : '\x7d' ∉ b' := fun hm => h (List.mem_cons_of_mem ch hm)
    show scanInner (ch :: (b' ++ '\x7d' :: r)) = some (ch :: b', r)
    rw [scanInner, if_neg hc, scanInnerAux_append b' r h']

theorem tryMapMatch_template (p c r : List Char) (hp1 : ')' ∉ p) (hp2 : '=' ∉ p)
    (hc1 : c ≠ []) (hc2 : '\x7d' ∉ c) :
    tryMapMatch ('.' :: 'm' :: 'a' :: 'p' :: '(' ::
        (p ++ ' ' :: '=' :: '>' :: ' ' :: '\x7b' :: (c ++ '\x7d' :: r)))
      = some ('.' :: 'm' :: 'a' :: 'p' :: '(' ::
          (p ++ ' ' :: '=' :: '>' :: ' ' :: '\x7b' :: (c ++ ['\x7d'])), r) := by
  rw [tryMapMatch]
  rw [if_pos ⟨rfl, rfl, rfl, rfl, rfl⟩]
  have hq : (p ++ ' ' :: '=' :: '>' :: ' ' :: '\x7b' :: (c ++ '\x7d' :: r))
      = (p ++ [' ']) ++ '=' :: '>' :: (' ' :: '\x7b' :: (c ++ '\x7d' :: r)) := by
    simp
  rw [hq, scanParams_append (p ++ [' ']) _
    (notMem_append hp1 (by decide)) (notMem_append hp2 (by decide))]
  have htw : List.takeWhile isWsChar (' ' :: '\x7b' :: (c ++ '\x7d' :: r)) = [' '] := rfl
  have hdw : List.dropWhile isWsChar (' ' :: '\x7b' :: (c ++ '\x7d' :: r))
      = '\x7b' :: (c ++ '\x7d' :: r) := rfl
  simp only [htw, hdw, scanInner_append c r hc1 hc2]
  simp

theorem firstIdx_first (a t : List Char) (h : '\x7b' ∉ a) :
    firstIdx (a ++ '\x7b' :: t) '\x7b' = some a.length := by
  induction a with
  | nil => simp [firstIdx]
  | cons ch a' ih =>
    have hc : ch ≠ '\x7b' := fun hcc => h (hcc ▸ List.mem_cons_self ch a')
    have h' : '\x7b' ∉ a' := fun hm => h (List.mem_cons_of_mem ch hm)
    show firstIdx (ch :: (a' ++ '\x7b' :: t)) '\x7b' = some (a'.length + 1)
    rw [firstIdx, if_neg hc, ih h']
    rfl

theorem lastIdx_concat (a : List Char) (ch : Char) (h : ch ∉ a) :
    lastIdx (a ++ [ch]) ch = some a.length := by
  induction a with
  | nil => simp [lastIdx]
  | cons x a' ih =>
    have h' : ch ∉ a' := fun hm => h (List.mem_cons_of_mem x hm)
    show lastIdx (x :: (a' ++ [ch])) ch = some (a'.length + 1)
    rw [lastIdx, ih h']

theorem fixMatch_mid (A c : List Char)
    (hA_ob : '\x7b' ∉ A) (hA_cb : '\x7d' ∉ A) (hcc : '\x7d' ∉ c)
    (htrim : trimChars c = c)
    (hcolon : containsChar c ':' = true) (hsemi : containsChar c ';' = false)
    (hnoret : containsSub (A ++ '\x7b' :: (c ++ ['\x7d'])) ("return".data) = false) :
    fixMatch (A ++ '\x7b' :: (c ++ ['\x7d']))
      = A ++ '\x7b' :: (" return \x7b ".data ++ c ++ " \x7d; \x7d".data) := by
  have hfi : firstIdx (A ++ '\x7b' :: (c ++ ['\x7d'])) '\x7b' = some A.length :=
    firstIdx_first A (c ++ ['\x7d']) hA_ob
  have hm2 : A ++ '\x7b' :: (c ++ ['\x7d']) = (A ++ '\x7b' :: c) ++ ['\x7d'] := by simp
  have hli : lastIdx (A ++ '\x7b' :: (c ++ ['\x7d'])) '\x7d'
      = some (A ++ '\x7b' :: c).length := by
    rw [hm2]
    exact lastIdx_concat _ _ (notMem_append hA_cb (by
      intro hm
      rcases List.mem_cons.mp hm with h | h
      · exact absurd h (by decide)
      · exact hcc h))
  have hm3 : A ++ '\x7b' :: (c ++ ['\x7d']) = (A ++ ['\x7b']) ++ (c ++ ['\x7d']) := by simp
  have hlen1 : A.length + 1 = (A ++ ['\x7b']).length := by simp
  have hdrop1 : (A ++ '\x7b' :: (c ++ ['\x7d'])).drop (A.length + 1) = c ++ ['\x7d'] := by
    rw [hm3, hlen1, List.drop_left]
  have hlen2 : (A ++ '\x7b' :: c).length - (A.length + 1) = c.length := by
    simp only [List.length_append, List.length_cons]
    omega
  have htake1 : (A ++ '\x7b' :: (c ++ ['\x7d'])).take (A.length + 1) = A ++ ['\x7b'] := by
    rw [hm3, hlen1, List.take_left]
  have hdrop2 : (A ++ '\x7b' :: (c ++ ['\x7d'])).drop (A ++ '\x7b' :: c).length = ['\x7d'] := by
    rw [hm2, List.drop_left]
  rw [fixMatch]
  rw [hnoret]
  simp only [Bool.false_eq_true, if_false, hfi, hli]
  rw [hdrop1, hlen2, List.take_left c ['\x7d'], htrim, hcolon, hsemi]
  simp only [Bool.not_false, Bool.and_true, if_true]
  rw [htake1, hdrop2]
  simp

theorem notMem_cons {a b : Char} {l : List Char} (h1 : a ≠ b) (h2 : a ∉ l) :
    a ∉ b :: l := by
  intro h
  rcases List.mem_cons.mp h with h | h
  · exact h1 h
  · exact h2 h

theorem fixMapCalls_match (s m r : List Char) (h : tryMapMatch s = some (m, r)) :
    fixMapCalls s = fixMatch m ++ fixMapCalls r := by
  obtain ⟨hmr, hm⟩ := tryMapMatch_decomp s m r h
  cases s with
  | nil =>
    exfalso
    cases m with
    | nil => exact hm rfl
    | cons x xs => exact absurd hmr (by simp)
  | cons ch rest =>
    have hrlen : r.length ≤ rest.length := by
      have hlen := congrArg List.length hmr
      simp only [List.length_append, List.length_cons] at hlen
      have : 1 ≤ m.length := List.length_pos.mpr hm
      omega
    show fixMapAux ((ch :: rest).length) (ch :: rest) = _
    simp only [List.length_cons, fixMapAux, h]
    rw [fixMapAux_eq_fixMapCalls rest.length r hrlen]

theorem splitOnChar_no_sep (sep : Char) : ∀ (s : List Char), sep ∉ s →
    splitOnChar sep s = [s] := by
  intro s
  induction s with
  | nil => intro _; rfl
  | cons c rest ih =>
    intro h
    have hc : c ≠ sep := fun hcc => h (hcc ▸ List.mem_cons_self c rest)
    have h' : sep ∉ rest := fun hm => h (List.mem_cons_of_mem c hm)
    rw [splitOnChar, if_neg hc, ih h']

theorem splitOnChar_append_sep (sep : Char) : ∀ (a rest : List Char), sep ∉ a →
    splitOnChar sep (a ++ sep :: rest) = a :: splitOnChar sep rest := by
  intro a
  induction a with
  | nil =>
    intro rest _
    show splitOnChar sep (sep :: rest) = [] :: splitOnChar sep rest
    rw [splitOnChar, if_pos rfl]
  | cons c a' ih =>
    intro rest h
    have hc : c ≠ sep := fun hcc => h (hcc ▸ List.mem_cons_self c a')
    have h' : sep ∉ a' := fun hm => h (List.mem_cons_of_mem c hm)
    show splitOnChar sep (c :: (a' ++ sep :: rest)) = (c :: a') :: splitOnChar sep rest
    rw [splitOnChar, if_neg hc, ih rest h']

theorem getLast?_dropWhile (p : Char → Bool) :
    ∀ (s : List Char) (ch : Char), s.getLast? = some ch → p ch = false →
      (s.dropWhile p).getLast? = some ch := by
  intro s
  induction s with
  | nil => intro ch h _; simp at h
  | cons x rest ih =>
    intro ch h hch
    cases rest with
    | nil =>
      simp only [List.getLast?_singleton, Option.some.injEq] at h
      subst h
      simp [List.dropWhile, hch]
    | cons y rest' =>
      rw [List.getLast?_cons_cons] at h
      by_cases hx : p x = true
      · rw [List.dropWhile_cons_of_pos hx]
        exact ih ch h hch
      · rw [List.dropWhile_cons_of_neg hx]
        rw [List.getLast?_cons_cons]
        exact h

theorem trimRight_of_last (t : List Char) (ch : Char) (h : t.getLast? = some ch)
    (hch : isWsChar ch = false) : trimRightChars t = t := by
  cases hrev : t.reverse with
  | nil =>
    have : t = [] := by simpa using congrArg List.reverse hrev
    subst this
    rfl
  | cons x xs =>
    have hx : x = ch := by
      have h1 : t.reverse.head? = some x := by rw [hrev]; rfl
      rw [List.head?_reverse, h] at h1
      exact (Option.some.injEq .. ▸ h1).symm
    subst hx
    unfold trimRightChars
    rw [hrev, List.dropWhile_cons_of_neg (by rw [hch]; simp), ← hrev, List.reverse_reverse]

theorem trimChars_getLast? (s : List Char) (ch : Char) (h : s.getLast? = some ch)
    (hch : isWsChar ch = false) : (trimChars s).getLast? = some ch := by
  have h1 : (trimLeftChars s).getLast? = some ch := getLast?_dropWhile isWsChar s ch h hch
  unfold trimChars
  rw [trimRight_of_last (trimLeftChars s) ch h1 hch]
  exact h1

theorem standaloneDetect_last (t : List Char) (ch : Char) (h : t.getLast? = some ch)
    (hne : ch ≠ '\x7d') : standaloneDetect t = false := by
  simp only [standaloneDetect, h]
  have : (some ch == some '\x7d') = false := by
    simp [hne]
  rw [this]
  simp

theorem fixLineF_no_detect (line : List Char)
    (h : standaloneDetect (trimChars line) = false) : fixLineF line = (line, false) := by
  simp [fixLineF, h]

theorem isPrefixOf_self : ∀ (l : List Char), l.isPrefixOf l = true := by
  intro l
  induction l with
  | nil => rfl
  | cons c rest ih => simp [List.isPrefixOf, ih]

theorem replaceFirst_self (t new : List Char) : replaceFirst t new t = new := by
  cases t with
  | nil => rfl
  | cons c rest =>
    rw [replaceFirst, if_pos (isPrefixOf_self (c :: rest))]
    simp

theorem fixLineF_detect (t : List Char) (htrim : trimChars t = t)
    (h : standaloneDetect t = true) : fixLineF t = (commentFix t, true) := by
  simp [fixLineF, htrim, h, replaceFirst_self]

theorem joinChar_single (sep : Char) (l : List Char) : joinChar sep [l] = l := rfl

theorem autoFix_of_changed (L AF : List Char) (lines' : List (List Char)) (lf : Bool)
    (h1 : fixMapCalls L = AF) (hne : AF ≠ L)
    (h2 : fixLines (splitOnChar '\n' AF) = (lines', lf)) :
    autoFixJavaScript (String.mk L) = (String.mk (joinChar '\n' lines'), true) := by
  unfold autoFixJavaScript
  simp only []
  simp only [h1, h2]
  rw [if_neg hne]
  simp

theorem autoFix_of_line_fix (L : List Char) (lines' : List (List Char))
    (h1 : fixMapCalls L = L)
    (h2 : fixLines (splitOnChar '\n' L) = (lines', true)) :
    autoFixJavaScript (String.mk L) = (String.mk (joinChar '\n' lines'), true) := by
  unfold autoFixJavaScript
  simp only []
  simp only [h1, h2]
  simp

theorem autoFix_map_rewrite (pre p c : List Char)
    (hpre1 : '.' ∉ pre) (hpre2 : '\n' ∉ pre)
    (hp1 : ')' ∉ p) (hp2 : '=' ∉ p) (hp3 : '\x7b' ∉ p) (hp4 : '\x7d' ∉ p) (hp5 : '\n' ∉ p)
    (hc0 : c ≠ []) (hc2 : '\x7d' ∉ c) (hc3 : '\n' ∉ c)
    (htrim : trimChars c = c)
    (hcolon : containsChar c ':' = true) (hsemi : containsChar c ';' = false)
    (hnoret : containsSub ('.' :: 'm' :: 'a' :: 'p' :: '(' ::
        (p ++ ' ' :: '=' :: '>' :: ' ' :: '\x7b' :: (c ++ ['\x7d'])))
        ("return".data) = false) :
    autoFixJavaScript (String.mk (pre ++ '.' :: 'm' :: 'a' :: 'p' :: '(' ::
        (p ++ ' ' :: '=' :: '>' :: ' ' :: '\x7b' :: (c ++ ['\x7d', ')']))))
      = (String.mk (pre ++ '.' :: 'm' :: 'a' :: 'p' :: '(' ::
          (p ++ ' ' :: '=' :: '>' :: ' ' :: '\x7b' ::
            (" return \x7b ".data ++ c ++ " \x7d; \x7d)".data))), true) := by
  have htemplate := tryMapMatch_template p c [')'] hp1 hp2 hc0 hc2
  have hMeq : ('.' :: 'm' :: 'a' :: 'p' :: '(' ::
        (p ++ ' ' :: '=' :: '>' :: ' ' :: '\x7b' :: (c ++ ['\x7d'])) : List Char)
      = (['.', 'm', 'a', 'p', '('] ++ p ++ [' ', '=', '>', ' ']) ++ '\x7b' :: (c ++ ['\x7d']) := by
    simp
  have hA_ob : '\x7b' ∉ (['.', 'm', 'a', 'p', '('] ++ p ++ [' ', '=', '>', ' '] : List Char) :=
    notMem_append (notMem_append (by decide) hp3) (by decide)
  have hA_cb : '\x7d' ∉ (['.', 'm', 'a', 'p', '('] ++ p ++ [' ', '=', '>', ' '] : List Char) :=
    notMem_append (notMem_append (by decide) hp4) (by decide)
  have hnoret' : containsSub ((['.', 'm', 'a', 'p', '('] ++ p ++ [' ', '=', '>', ' '])
      ++ '\x7b' :: (c ++ ['\x7d'])) ("return".data) = false := hMeq ▸ hnoret
  have hFix : fixMatch ('.' :: 'm' :: 'a' :: 'p' :: '(' ::
        (p ++ ' ' :: '=' :: '>' :: ' ' :: '\x7b' :: (c ++ ['\x7d'])))
      = (['.', 'm', 'a', 'p', '('] ++ p ++ [' ', '=', '>', ' '])
          ++ '\x7b' :: (" return \x7b ".data ++ c ++ " \x7d; \x7d".data) := by
    rw [hMeq]
    exact fixMatch_mid _ c hA_ob hA_cb hc2 htrim hcolon hsemi hnoret'
  have hAfter : fixMapCalls (pre ++ '.' :: 'm' :: 'a' :: 'p' :: '(' ::
        (p ++ ' ' :: '=' :: '>' :: ' ' :: '\x7b' :: (c ++ ['\x7d', ')'])))
      = pre ++ ((['.', 'm', 'a', 'p', '('] ++ p ++ [' ', '=', '>', ' '])
          ++ '\x7b' :: (" return \x7b ".data ++ c ++ " \x7d; \x7d".data)) ++ [')'] := by
    rw [fixMapCalls_skip pre _ hpre1, fixMapCalls_match _ _ _ htemplate, hFix]
    have hrp : fixMapCalls [')'] = [')'] := rfl
    rw [hrp]
    simp [List.append_assoc]
  have hneq : fixMapCalls (pre ++ '.' :: 'm' :: 'a' :: 'p' :: '(' ::
        (p ++ ' ' :: '=' :: '>' :: ' ' :: '\x7b' :: (c ++ ['\x7d', ')'])))
      ≠ pre ++ '.' :: 'm' :: 'a' :: 'p' :: '(' ::
        (p ++ ' ' :: '=' :: '>' :: ' ' :: '\x7b' :: (c ++ ['\x7d', ')'])) := by
    rw [hAfter]
    intro he
    have hlenEq := congrArg List.length he
    have hr1 : (" return \x7b ".data : List Char).length = 10 := rfl
    have hr2 : (" \x7d; \x7d".data : List Char).length = 5 := rfl
    simp only [List.length_append, List.length_cons, hr1, hr2] at hlenEq
    omega
  have hF_nl : '\n' ∉ ((['.', 'm', 'a', 'p', '('] ++ p ++ [' ', '=', '>', ' '])
      ++ '\x7b' :: (" return \x7b ".data ++ c ++ " \x7d; \x7d".data) : List Char) := by
    refine notMem_append (notMem_append (notMem_append (by decide) hp5) (by decide))
      (notMem_cons (by decide) ?_)
    exact notMem_append (notMem_append (by decide) hc3) (by decide)
  have hnl : '\n' ∉ (pre ++ ((['.', 'm', 'a', 'p', '('] ++ p ++ [' ', '=', '>', ' '])
      ++ '\x7b' :: (" return \x7b ".data ++ c ++ " \x7d; \x7d".data)) ++ [')'] : List Char) :=
    notMem_append (notMem_append hpre2 hF_nl) (by decide)
  have hlast : (pre ++ ((['.', 'm', 'a', 'p', '('] ++ p ++ [' ', '=', '>', ' '])
      ++ '\x7b' :: (" return \x7b ".data ++ c ++ " \x7d; \x7d".data)) ++ [')'] : List Char).getLast?
      = some ')' := List.getLast?_concat _
  have hdetect : standaloneDetect (trimChars (pre ++ ((['.', 'm', 'a', 'p', '('] ++ p
      ++ [' ', '=', '>', ' ']) ++ '\x7b' :: (" return \x7b ".data ++ c ++ " \x7d; \x7d".data))
      ++ [')'])) = false :=
    standaloneDetect_last _ ')' (trimChars_getLast? _ ')' hlast (by decide)) (by decide)
  have h2 : fixLines (splitOnChar '\n' (pre ++ ((['.', 'm', 'a', 'p', '('] ++ p
      ++ [' ', '=', '>', ' ']) ++ '\x7b' :: (" return \x7b ".data ++ c ++ " \x7d; \x7d".data))
      ++ [')']))
      = ([pre ++ ((['.', 'm', 'a', 'p', '('] ++ p ++ [' ', '=', '>', ' '])
          ++ '\x7b' :: (" return \x7b ".data ++ c ++ " \x7d; \x7d".data)) ++ [')']], false) := by
    rw [splitOnChar_no_sep '\n' _ hnl]
    simp only [fixLines, fixLineF_no_detect _ hdetect, Bool.or_false]
  rw [autoFix_of_changed _ _ _ _ hAfter (hAfter ▸ hneq) h2, joinChar_single]
  have hfuse : (" \x7d; \x7d".data ++ [')'] : List Char) = " \x7d; \x7d)".data := rfl
  have hlist : (pre ++ ((['.', 'm', 'a', 'p', '('] ++ p ++ [' ', '=', '>', ' '])
      ++ '\x7b' :: (" return \x7b ".data ++ c ++ " \x7d; \x7d".data)) ++ [')'] : List Char)
      = pre ++ '.' :: 'm' :: 'a' :: 'p' :: '(' :: (p ++ ' ' :: '=' :: '>' :: ' '
          :: '\x7b' :: (" return \x7b ".data ++ c ++ " \x7d; \x7d)".data)) := by
    rw [← hfuse]
    simp [List.append_assoc]
  rw [hlist]

theorem autoFix_standalone_comment (a t b : List Char)
    (ha1 : '.' ∉ a) (ha2 : '\n' ∉ a) (ht1 : '.' ∉ t) (ht2 : '\n' ∉ t)
    (hb1 : '.' ∉ b) (hb2 : '\n' ∉ b)
    (htrim : trimChars t = t) (hdet : standaloneDetect t = true)
    (hdeta : standaloneDetect (trimChars a) = false)
    (hdetb : standaloneDetect (trimChars b) = false) :
    autoFixJavaScript (String.mk (a ++ '\n' :: (t ++ '\n' :: b)))
      = (String.mk (a ++ '\n' :: (commentFix t ++ '\n' :: b)), true) := by
  have hnodot : '.' ∉ (a ++ '\n' :: (t ++ '\n' :: b) : List Char) :=
    notMem_append ha1 (notMem_cons (by decide)
      (notMem_append ht1 (notMem_cons (by decide) hb1)))
  have h1 : fixMapCalls (a ++ '\n' :: (t ++ '\n' :: b)) = a ++ '\n' :: (t ++ '\n' :: b) :=
    fixMapCalls_nodot _ hnodot
  have hsplit : splitOnChar '\n' (a ++ '\n' :: (t ++ '\n' :: b)) = [a, t, b] := by
    rw [splitOnChar_append_sep '\n' a _ ha2, splitOnChar_append_sep '\n' t _ ht2,
      splitOnChar_no_sep '\n' b hb2]
  have h2 : fixLines [a, t, b] = ([a, commentFix t, b], true) := by
    simp only [fixLines, fixLineF_no_detect a hdeta, fixLineF_no_detect b hdetb,
      fixLineF_detect t htrim hdet]
    simp
  rw [autoFix_of_line_fix _ _ h1 (by rw [hsplit]; exact h2)]
  rfl

/-- Claim C9 counterexample: this code string has a transform callback (a
filter callback) whose bare object-literal body has a colon and no return
keyword, yet the Syntax Guard leaves the code byte-for-byte unchanged and
reports nothing fixed: only map callbacks are repaired. -/
theorem c9_transform_callback_counterexample :
    autoFixJavaScript "const titles = items.filter(x => \x7b keep: x.ok \x7d)"
      = ("const titles = items.filter(x => \x7b keep: x.ok \x7d)", false) := by
  decide

/-- Claim C9 (amended): the first pass repairs map callbacks: for every code
string consisting of a dot-free prefix, a map callback whose parameter text
has no closing parenthesis or equals sign, and a single-level bare
object-literal body that is trimmed, has a colon, no semicolon and no return
anywhere in the matched fragment, the guard splices a return-wrapped object
literal into the body and reports the code fixed; the second pass comments
out every detected stray standalone object-literal line in place (with the
explanatory marker, the original text preserved) rather than deleting it,
leaving the surrounding lines untouched. -/
theorem c9_amended_syntax_guard :
    (∀ pre p c : List Char, '.' ∉ pre → '\n' ∉ pre →
      ')' ∉ p → '=' ∉ p → '\x7b' ∉ p → '\x7d' ∉ p → '\n' ∉ p →
      c ≠ [] → '\x7d' ∉ c → '\n' ∉ c → trimChars c = c →
      containsChar c ':' = true → containsChar c ';' = false →
      containsSub ('.' :: 'm' :: 'a' :: 'p' :: '(' ::
          (p ++ ' ' :: '=' :: '>' :: ' ' :: '\x7b' :: (c ++ ['\x7d'])))
          ("return".data) = false →
      autoFixJavaScript (String.mk (pre ++ '.' :: 'm' :: 'a' :: 'p' :: '(' ::
          (p ++ ' ' :: '=' :: '>' :: ' ' :: '\x7b' :: (c ++ ['\x7d', ')']))))
        = (String.mk (pre ++ '.' :: 'm' :: 'a' :: 'p' :: '(' ::
            (p ++ ' ' :: '=' :: '>' :: ' ' :: '\x7b' ::
              (" return \x7b ".data ++ c ++ " \x7d; \x7d)".data))), true))
    ∧ (∀ a t b : List Char, '.' ∉ a → '\n' ∉ a → '.' ∉ t → '\n' ∉ t →
      '.' ∉ b → '\n' ∉ b → trimChars t = t → standaloneDetect t = true →
      standaloneDetect (trimChars a) = false → standaloneDetect (trimChars b) = false →
      autoFixJavaScript (String.mk (a ++ '\n' :: (t ++ '\n' :: b)))
        = (String.mk (a ++ '\n' :: (commentFix t ++ '\n' :: b)), true)) :=
  ⟨fun pre p c h1 h2 h3 h4 h5 h6 h7 h8 h9 h10 h11 h12 h13 h14 =>
    autoFix_map_rewrite pre p c h1 h2 h3 h4 h5 h6 h7 h8 h9 h10 h11 h12 h13 h14,
   fun a t b h1 h2 h3 h4 h5 h6 h7 h8 h9 h10 =>
    autoFix_standalone_comment a t b h1 h2 h3 h4 h5 h6 h7 h8 h9 h10⟩

/-- Witness for C9 amended at concrete inputs: the map-callback body gains a
return, and a standalone object-literal line between two ordinary lines is
commented out with the marker. -/
theorem c9_amended_syntax_guard_witness :
    autoFixJavaScript (String.mk ("const r = xs".data ++ '.' :: 'm' :: 'a' :: 'p' :: '(' ::
        ("x".data ++ ' ' :: '=' :: '>' :: ' ' :: '\x7b' :: ("cost: x".data ++ ['\x7d', ')']))))
      = (String.mk ("const r = xs".data ++ '.' :: 'm' :: 'a' :: 'p' :: '(' ::
          ("x".data ++ ' ' :: '=' :: '>' :: ' ' :: '\x7b' ::
            (" return \x7b ".data ++ "cost: x".data ++ " \x7d; \x7d)".data))), true)
    ∧ autoFixJavaScript (String.mk ("let a = 1".data ++ '\n' ::
        ("\x7bcost: 1\x7d".data ++ '\n' :: "message(a)".data)))
      = (String.mk ("let a = 1".data ++ '\n' ::
          (commentFix "\x7bcost: 1\x7d".data ++ '\n' :: "message(a)".data)), true) :=
  ⟨c9_amended_syntax_guard.1 "const r = xs".data "x".data "cost: x".data
    (by decide) (by decide) (by decide) (by decide) (by decide) (by decide) (by decide)
    (by decide) (by decide) (by decide) (by decide) (by decide) (by decide) (by decide),
   c9_amended_syntax_guard.2 "let a = 1".data "\x7bcost: 1\x7d".data "message(a)".data
    (by decide) (by decide) (by decide) (by decide) (by decide) (by decide) (by decide)
    (by decide) (by decide) (by decide)⟩

end Teamwork
